import Mathlib

/-!
Shallow embedding of the matching core of `video_episode_renamer`
(`src/core/cache.py`, `src/core/matcher.py`, `src/core/pipeline.py`,
`src/matchers/audio/mfcc.py`, `src/matchers/audio/peak_matcher.py`,
`src/matchers/audio/invariant_matcher.py`, `src/matchers/video/phash.py`).

Modelling conventions:
* file paths are abstracted as natural-number identifiers;
* Python floats are modelled as exact rationals (reals for the cosine
  similarity, whose value divides by square roots); float rounding of
  progress percentages and `%`-formatted numbers inside info strings is not
  load-bearing for any claim and is rendered with exact arithmetic;
* Python dicts are modelled as insertion-ordered association lists (or, for
  the pipeline's per-remux best table, as a function updated pointwise),
  and the truthiness tests of the source (`if cached:`,
  `if ref_duration and remux_duration:`, `if best_ref`) are modelled
  explicitly;
* the cooperative cancellation flag is modelled as a schedule
  `running : Nat -> Bool` giving the value returned by the k-th read of
  `self._running`; generators are modelled as functions returning the list
  of yielded events.
-/

namespace VER

/-- Composite audio-cache key `(path, stream_index, sample_rate)` of
`MediaCache._audio_cache`; paths are abstracted as naturals. -/
abbrev AKey := ℕ × ℕ × ℕ

/-- Audio-relevant state of `MediaCache` (`src/core/cache.py`): the audio
entries in dict insertion order, each key with the stored buffer's `nbytes`,
together with the tracked byte counter `_audio_cache_size` and the configured
budget `max_audio_bytes`. -/
structure MediaCache where
  entries : List (AKey × ℤ)
  audio_cache_size : ℤ
  max_audio_bytes : ℤ
deriving DecidableEq

/-- A fresh `MediaCache` with the given byte budget. -/
def MediaCache.init (maxB : ℤ) : MediaCache := ⟨[], 0, maxB⟩

/-- Total `nbytes` of the buffers currently held in an entry list. -/
def sumBytes (l : List (AKey × ℤ)) : ℤ := (l.map Prod.snd).sum

/-- Python-dict insertion: overwrite in place when the key is already
present, append at the end otherwise. -/
def dictInsert (l : List (AKey × ℤ)) (k : AKey) (v : ℤ) : List (AKey × ℤ) :=
  if l.any (fun e => e.1 == k) then
    l.map (fun e => if e.1 == k then (k, v) else e)
  else l ++ [(k, v)]

/-- `MediaCache._evict_audio`: pop entries FIFO (oldest first) while the
cache is nonempty and the tracked size plus the incoming bytes still
exceeds the budget, subtracting each popped buffer's `nbytes`. -/
def evictAudio (maxB needed : ℤ) : List (AKey × ℤ) → ℤ → List (AKey × ℤ) × ℤ
  | [], size => ([], size)
  | e :: rest, size =>
    if size + needed > maxB then evictAudio maxB needed rest (size - e.2)
    else (e :: rest, size)

/-- `MediaCache.set_audio`: evict (FIFO) when the incoming buffer would
overflow the budget, then insert unconditionally and grow the tracked
size. -/
def MediaCache.set_audio (c : MediaCache) (k : AKey) (nbytes : ℤ) : MediaCache :=
  let es :=
    if c.audio_cache_size + nbytes > c.max_audio_bytes then
      evictAudio c.max_audio_bytes nbytes c.entries c.audio_cache_size
    else (c.entries, c.audio_cache_size)
  { c with entries := dictInsert es.1 k nbytes,
           audio_cache_size := es.2 + nbytes }

/-- `MediaCache.clear`, restricted to the audio-cache fields it resets. -/
def MediaCache.clear (c : MediaCache) : MediaCache :=
  { c with entries := [], audio_cache_size := 0 }

theorem evictAudio_spec (maxB needed : ℤ) :
    ∀ (l : List (AKey × ℤ)) (size : ℤ), size = sumBytes l →
      (evictAudio maxB needed l size).2 = sumBytes (evictAudio maxB needed l size).1 ∧
      (evictAudio maxB needed l size).1 <:+ l ∧
      ((evictAudio maxB needed l size).2 + needed ≤ maxB ∨
        (evictAudio maxB needed l size).1 = []) := by
  intro l
  induction l with
  | nil =>
    intro size h
    refine ⟨?_, List.suffix_refl _, Or.inr rfl⟩
    simpa [evictAudio] using h
  | cons e rest ih =>
    intro size h
    by_cases hc : size + needed > maxB
    · have hrest : size - e.2 = sumBytes rest := by
        simp [sumBytes] at h ⊢
        omega
      have heq : evictAudio maxB needed (e :: rest) size =
          evictAudio maxB needed rest (size - e.2) := by
        simp [evictAudio, hc]
      obtain ⟨h1, h2, h3⟩ := ih (size - e.2) hrest
      rw [heq]
      exact ⟨h1, h2.trans (List.suffix_cons e rest), h3⟩
    · have heq : evictAudio maxB needed (e :: rest) size = (e :: rest, size) := by
        simp [evictAudio, hc]
      rw [heq]
      exact ⟨h, List.suffix_refl _, Or.inl (not_lt.mp hc)⟩

theorem dictInsert_of_not_mem (l : List (AKey × ℤ)) (k : AKey) (v : ℤ)
    (h : k ∉ l.map Prod.fst) : dictInsert l k v = l ++ [(k, v)] := by
  unfold dictInsert
  rw [if_neg]
  intro hx
  obtain ⟨e, he, heq⟩ := List.any_eq_true.mp hx
  exact h (List.mem_map.mpr ⟨e, he, by simpa using heq⟩)

theorem set_audio_spec (c : MediaCache) (k : AKey) (b : ℤ)
    (hk : k ∉ c.entries.map Prod.fst)
    (hsz : c.audio_cache_size = sumBytes c.entries) :
    ∃ t, t <:+ c.entries ∧
      (c.set_audio k b).entries = t ++ [(k, b)] ∧
      (c.set_audio k b).audio_cache_size = sumBytes t + b ∧
      (sumBytes t + b ≤ c.max_audio_bytes ∨ t = []) ∧
      (c.set_audio k b).max_audio_bytes = c.max_audio_bytes := by
  by_cases hc : c.audio_cache_size + b > c.max_audio_bytes
  · obtain ⟨h1, h2, h3⟩ :=
      evictAudio_spec c.max_audio_bytes b c.entries c.audio_cache_size hsz
    set ev := evictAudio c.max_audio_bytes b c.entries c.audio_cache_size with hev
    have hkt : k ∉ ev.1.map Prod.fst := fun hx =>
      hk ((h2.sublist.map Prod.fst).subset hx)
    refine ⟨ev.1, h2, ?_, ?_, ?_, ?_⟩
    · simp only [MediaCache.set_audio, if_pos hc]
      exact dictInsert_of_not_mem _ _ _ hkt
    · simp only [MediaCache.set_audio, if_pos hc]
      rw [h1]
    · rcases h3 with h3 | h3
      · exact Or.inl (by rw [← h1]; omega)
      · exact Or.inr h3
    · simp [MediaCache.set_audio]
  · refine ⟨c.entries, List.suffix_refl _, ?_, ?_, Or.inl ?_, ?_⟩
    · simp only [MediaCache.set_audio, if_neg hc]
      exact dictInsert_of_not_mem _ _ _ hk
    · simp only [MediaCache.set_audio, if_neg hc]
      rw [hsz]
    · rw [← hsz]; omega
    · simp [MediaCache.set_audio]

/-- Concrete keys used in the eviction example. -/
def keyA : AKey := (0, 0, 0)

/-- Concrete keys used in the eviction example. -/
def keyB : AKey := (1, 0, 0)

/-- Concrete keys used in the eviction example. -/
def keyC : AKey := (2, 0, 0)

/-- Claim C4: `set_audio` evicts existing audio entries in insertion order
(the surviving entries are a suffix of the previous list) until the tracked
size plus the incoming bytes no longer exceeds the budget or the cache is
empty, then inserts the new entry unconditionally; in particular, with a
10 MiB budget, inserting 6 MiB buffers A, B, C in order under distinct keys
leaves only C cached. -/
theorem set_audio_fifo_eviction :
    (∀ (c : MediaCache) (k : AKey) (b : ℤ),
        k ∉ c.entries.map Prod.fst →
        c.audio_cache_size = sumBytes c.entries →
        ∃ t, t <:+ c.entries ∧
          (c.set_audio k b).entries = t ++ [(k, b)] ∧
          (sumBytes t + b ≤ c.max_audio_bytes ∨ t = [])) ∧
    ((((MediaCache.init (10 * 1024 * 1024)).set_audio keyA
        (6 * 1024 * 1024)).set_audio keyB (6 * 1024 * 1024)).set_audio keyC
        (6 * 1024 * 1024)).entries = [(keyC, 6 * 1024 * 1024)] := by
  constructor
  · intro c k b hk hsz
    obtain ⟨t, h1, h2, _, h4, _⟩ := set_audio_spec c k b hk hsz
    exact ⟨t, h1, h2, h4⟩
  · decide

/-- Witness for C4 at a concrete cache and key. -/
theorem set_audio_fifo_eviction_witness :
    keyA ∉ (MediaCache.init 10).entries.map Prod.fst ∧
    (MediaCache.init 10).audio_cache_size = sumBytes (MediaCache.init 10).entries ∧
    ∃ t, t <:+ (MediaCache.init 10).entries ∧
      ((MediaCache.init 10).set_audio keyA 4).entries = t ++ [(keyA, 4)] ∧
      (sumBytes t + 4 ≤ (MediaCache.init 10).max_audio_bytes ∨ t = []) :=
  ⟨by decide, by decide,
    set_audio_fifo_eviction.1 (MediaCache.init 10) keyA 4 (by decide) (by decide)⟩

/-- An audio-cache operation: `set_audio` with a key and buffer size, or
`clear`. -/
inductive CacheOp
  | set_audio (k : AKey) (nbytes : ℤ)
  | clear
deriving DecidableEq

/-- Run a sequence of cache operations. -/
def MediaCache.run (c : MediaCache) : List CacheOp → MediaCache
  | [] => c
  | CacheOp.set_audio k b :: ops => (c.set_audio k b).run ops
  | CacheOp.clear :: ops => (MediaCache.clear c).run ops

/-- The keys inserted by a sequence of operations. -/
def opsKeys : List CacheOp → List AKey
  | [] => []
  | CacheOp.set_audio k _ :: ops => k :: opsKeys ops
  | CacheOp.clear :: ops => opsKeys ops

/-- Every inserted buffer size is nonnegative (true of `ndarray.nbytes`). -/
def opsNonneg : List CacheOp → Bool
  | [] => true
  | CacheOp.set_audio _ b :: ops => decide (0 ≤ b) && opsNonneg ops
  | CacheOp.clear :: ops => opsNonneg ops

/-- The cache-accounting invariant: the tracked byte count is the sum of the
cached buffers' sizes, all sizes are nonnegative, and the budget is respected
except possibly by a lone oversized entry. -/
def CacheInv (c : MediaCache) : Prop :=
  c.audio_cache_size = sumBytes c.entries ∧
  (∀ e ∈ c.entries, 0 ≤ e.2) ∧
  (c.audio_cache_size ≤ c.max_audio_bytes ∨ c.entries.length = 1)

theorem set_audio_preserves_inv (c : MediaCache) (k : AKey) (b : ℤ)
    (hinv : CacheInv c) (hk : k ∉ c.entries.map Prod.fst) (hb : 0 ≤ b) :
    CacheInv (c.set_audio k b) ∧
    (c.set_audio k b).entries.map Prod.fst ⊆ k :: c.entries.map Prod.fst ∧
    (c.set_audio k b).max_audio_bytes = c.max_audio_bytes := by
  obtain ⟨hsz, hnn, _⟩ := hinv
  obtain ⟨t, h1, h2, h3, h4, h5⟩ := set_audio_spec c k b hk hsz
  refine ⟨⟨?_, ?_, ?_⟩, ?_, h5⟩
  · rw [h2, h3]; simp [sumBytes]
  · intro e he
    rw [h2] at he
    rcases List.mem_append.mp he with h | h
    · exact hnn e (h1.sublist.subset h)
    · simp at h; rw [h]; exact hb
  · rcases h4 with h4 | h4
    · exact Or.inl (by rw [h3, h5]; exact h4)
    · exact Or.inr (by rw [h2, h4]; rfl)
  · intro x hx
    rw [h2, List.map_append] at hx
    rcases List.mem_append.mp hx with h | h
    · exact List.mem_cons_of_mem _ ((h1.sublist.map Prod.fst).subset h)
    · simp at h; rw [h]; exact List.mem_cons_self _ _

theorem run_preserves_inv : ∀ (ops : List CacheOp) (c : MediaCache),
    CacheInv c → 0 ≤ c.max_audio_bytes →
    (opsKeys ops).Nodup → opsNonneg ops = true →
    (∀ x ∈ c.entries.map Prod.fst, x ∉ opsKeys ops) →
    CacheInv (c.run ops) ∧ (c.run ops).max_audio_bytes = c.max_audio_bytes := by
  intro ops
  induction ops with
  | nil => exact fun c h _ _ _ _ => ⟨h, rfl⟩
  | cons op rest ih =>
    intro c hinv hmax hnd hnn hdisj
    cases op with
    | set_audio k b =>
      have hk : k ∉ c.entries.map Prod.fst := fun hx =>
        hdisj k hx (by simp [opsKeys])
      have hb : 0 ≤ b := by
        simp [opsNonneg] at hnn
        exact hnn.1
      obtain ⟨hinv', hsub, hmax'⟩ := set_audio_preserves_inv c k b hinv hk hb
      have hnd' : (opsKeys rest).Nodup := by
        simp [opsKeys] at hnd
        exact hnd.2
      have hknotin : k ∉ opsKeys rest := by
        simp [opsKeys] at hnd
        exact hnd.1
      have hnn' : opsNonneg rest = true := by
        simp [opsNonneg] at hnn
        exact hnn.2
      have hdisj' : ∀ x ∈ (c.set_audio k b).entries.map Prod.fst,
          x ∉ opsKeys rest := by
        intro x hx
        rcases List.mem_cons.mp (hsub hx) with h | h
        · rw [h]; exact hknotin
        · intro hmem
          exact hdisj x h (by simp [opsKeys]; exact Or.inr hmem)
      obtain ⟨h1, h2⟩ := ih (c.set_audio k b) hinv' (hmax' ▸ hmax) hnd' hnn' hdisj'
      refine ⟨h1, ?_⟩
      show ((c.set_audio k b).run rest).max_audio_bytes = c.max_audio_bytes
      rw [h2, hmax']
    | clear =>
      have hinv' : CacheInv (MediaCache.clear c) :=
        ⟨rfl, by simp [MediaCache.clear], Or.inl (by simpa [MediaCache.clear] using hmax)⟩
      have hnd' : (opsKeys rest).Nodup := by simpa [opsKeys] using hnd
      have hnn' : opsNonneg rest = true := by simpa [opsNonneg] using hnn
      have hdisj' : ∀ x ∈ (MediaCache.clear c).entries.map Prod.fst,
          x ∉ opsKeys rest := by
        simp [MediaCache.clear]
      obtain ⟨h1, h2⟩ := ih (MediaCache.clear c) hinv' hmax hnd' hnn' hdisj'
      exact ⟨h1, h2⟩

theorem opsKeys_append (p s : List CacheOp) :
    opsKeys (p ++ s) = opsKeys p ++ opsKeys s := by
  induction p with
  | nil => rfl
  | cons op rest ih => cases op <;> simp [opsKeys, ih]

theorem opsNonneg_append (p s : List CacheOp) :
    opsNonneg (p ++ s) = (opsNonneg p && opsNonneg s) := by
  induction p with
  | nil => rfl
  | cons op rest ih => cases op <;> simp [opsNonneg, ih, Bool.and_assoc]

/-- Claim C9: for every sequence of `set_audio`/`clear` operations in which no
key is inserted twice and buffer sizes are nonnegative, after each operation
(i.e. at every prefix of the sequence) the tracked audio byte count equals the
sum of the `nbytes` of the buffers currently cached, and it does not exceed
the configured budget unless the cache holds exactly one entry. -/
theorem cache_size_invariant (maxB : ℤ) (hmax : 0 ≤ maxB) (ops : List CacheOp)
    (hnd : (opsKeys ops).Nodup) (hnn : opsNonneg ops = true) :
    ∀ p, p <+: ops →
      ((MediaCache.init maxB).run p).audio_cache_size =
        sumBytes ((MediaCache.init maxB).run p).entries ∧
      (((MediaCache.init maxB).run p).audio_cache_size ≤ maxB ∨
        ((MediaCache.init maxB).run p).entries.length = 1) := by
  intro p hp
  obtain ⟨s, rfl⟩ := hp
  rw [opsKeys_append] at hnd
  rw [opsNonneg_append, Bool.and_eq_true] at hnn
  have hinv0 : CacheInv (MediaCache.init maxB) :=
    ⟨rfl, by simp [MediaCache.init], Or.inl (by simpa [MediaCache.init] using hmax)⟩
  obtain ⟨⟨h1, _, h3⟩, h4⟩ :=
    run_preserves_inv p (MediaCache.init maxB) hinv0 hmax hnd.of_append_left hnn.1
      (by simp [MediaCache.init])
  exact ⟨h1, by rw [h4] at h3; simpa [MediaCache.init] using h3⟩

/-- Concrete operation sequence for the C9 witness. -/
def exOps : List CacheOp :=
  [CacheOp.set_audio keyA 4, CacheOp.set_audio keyB 5, CacheOp.clear,
   CacheOp.set_audio keyC 3]

/-- Concrete prefix of `exOps` for the C9 witness. -/
def exPfx : List CacheOp := [CacheOp.set_audio keyA 4, CacheOp.set_audio keyB 5]

/-- Witness for C9 at a concrete operation sequence and prefix. -/
theorem cache_size_invariant_witness :
    (0:ℤ) ≤ 6 ∧ (opsKeys exOps).Nodup ∧ opsNonneg exOps = true ∧
    exPfx <+: exOps ∧
    (((MediaCache.init 6).run exPfx).audio_cache_size =
        sumBytes (((MediaCache.init 6).run exPfx)).entries ∧
      (((MediaCache.init 6).run exPfx).audio_cache_size ≤ 6 ∨
        ((MediaCache.init 6).run exPfx).entries.length = 1)) :=
  ⟨by decide, by decide, by decide, by decide,
    cache_size_invariant 6 (by decide) exOps (by decide) (by decide) exPfx
      (by decide)⟩

/-- Stream descriptor as read by `BaseMatcher.get_audio_stream_index`
(`src/core/matcher.py`): `codec_type`, and the `language` and `title` tags
(empty string when the tag is absent, matching `tags.get(..., '')`). -/
structure SrcStream where
  codec_type : String
  language : String
  title : String
deriving DecidableEq

/-- Whether `needle` occurs at the head of `hay`. -/
def listLeads : List Char → List Char → Bool
  | [], _ => true
  | _ :: _, [] => false
  | a :: as, b :: bs => a == b && listLeads as bs

/-- Whether `needle` occurs as a contiguous run inside `hay` (Python's
`needle in hay` on strings). -/
def listHasSub (needle : List Char) : List Char → Bool
  | [] => needle.isEmpty
  | c :: rest => listLeads needle (c :: rest) || listHasSub needle rest

/-- Python `str.lower()`, modelled on the character list (the kernel cannot
reduce `String.toLower`). -/
def lowerStr (s : String) : List Char := s.toList.map Char.toLower

/-- Python `'commentary' in title` (on the lowercased title). -/
def has_commentary (title : String) : Bool :=
  listHasSub "commentary".toList (lowerStr title)

/-- The audio streams of a file with their absolute indices
(`enumerate(all_streams)` filtered to `codec_type == 'audio'`). -/
def audio_streams (streams : List SrcStream) : List (ℕ × SrcStream) :=
  streams.enum.filter (fun p => p.2.codec_type == "audio")

/-- The language-matching candidates: audio streams whose lowercased
language tag equals the requested string. -/
def lang_candidates (streams : List SrcStream) (l : String) : List (ℕ × SrcStream) :=
  (audio_streams streams).filter (fun p => lowerStr p.2.language == l.toList)

/-- The candidate list after `candidates.sort(key=non_comm, reverse=True)`:
Python's stable sort on a boolean key, descending, is the stable partition
putting non-commentary candidates first. -/
def sorted_candidates (streams : List SrcStream) (l : String) : List (ℕ × SrcStream) :=
  (lang_candidates streams l).filter (fun p => !(has_commentary p.2.title)) ++
  (lang_candidates streams l).filter (fun p => has_commentary p.2.title)

/-- `BaseMatcher.get_audio_stream_index`: pick the audio stream for a file.
A `none` requested language, and the empty string (both falsy in
`if not language:`), select the first audio stream. -/
def get_audio_stream_index (streams : List SrcStream) (language : Option String) :
    Option ℕ :=
  match audio_streams streams with
  | [] => none
  | (i0, _) :: _ =>
    match language with
    | none => some i0
    | some l =>
      if l = "" then some i0
      else
        match sorted_candidates streams l with
        | c :: _ => some c.1
        | [] => some i0

theorem get_audio_stream_index_eq (streams : List SrcStream) (l : String)
    (hl : l ≠ "") :
    get_audio_stream_index streams (some l) =
      match audio_streams streams with
      | [] => none
      | (i0, _) :: _ =>
        match sorted_candidates streams l with
        | c :: _ => some c.1
        | [] => some i0 := by
  unfold get_audio_stream_index
  cases audio_streams streams with
  | nil => rfl
  | cons a rest =>
    obtain ⟨i0, s0⟩ := a
    simp [hl]

/-- Claim C5, counterexample: matching is not case-insensitive in the
requested language. For streams tagged `[eng, jpn]` and a request for
`"JPN"`, the stream at index 1 matches case-insensitively, the stream at
index 0 does not, yet selection returns index 0 (the fallback). -/
theorem stream_selection_cex :
    get_audio_stream_index
        [⟨"audio", "eng", ""⟩, ⟨"audio", "jpn", ""⟩] (some "JPN") = some 0 ∧
    lowerStr "jpn" = lowerStr "JPN" ∧
    ¬ (lowerStr "eng" = lowerStr "JPN") := by
  refine ⟨?_, by decide, by decide⟩
  decide

/-- Concrete stream list `[video, eng, jpn(commentary), jpn]` for the C5
examples; the audio streams have absolute indices 1, 2, 3. -/
def exStreams : List SrcStream :=
  [⟨"video", "", ""⟩, ⟨"audio", "eng", "English"⟩,
   ⟨"audio", "jpn", "Director Commentary"⟩, ⟨"audio", "jpn", "Japanese"⟩]

/-- Claim C5, amended: the language comparison lowercases only the stream's
tag and compares it verbatim with the request (so it is case-insensitive in
the tag; in the application the request is lowercased by the pipeline).
With that amendment: for a nonempty requested language, selection returns
the first non-commentary matching stream's absolute index; if all matches
are commentary, the first matching stream's; if no stream matches, the
first audio stream's; and it returns nothing exactly when the file has no
audio streams. Concretely, `[eng, jpn(commentary), jpn]` with request `jpn`
gives the non-commentary `jpn` stream and request `fre` gives the first
audio stream. -/
theorem stream_selection_amended (streams : List SrcStream) (l : String)
    (hl : l ≠ "") :
    (get_audio_stream_index streams (some l) = none ↔ audio_streams streams = []) ∧
    (∀ i s, ((lang_candidates streams l).filter
        (fun p => !(has_commentary p.2.title))).head? = some (i, s) →
      get_audio_stream_index streams (some l) = some i) ∧
    ((lang_candidates streams l).filter
        (fun p => !(has_commentary p.2.title)) = [] →
      ∀ i s, (lang_candidates streams l).head? = some (i, s) →
        get_audio_stream_index streams (some l) = some i) ∧
    (lang_candidates streams l = [] →
      ∀ i s, (audio_streams streams).head? = some (i, s) →
        get_audio_stream_index streams (some l) = some i) ∧
    (get_audio_stream_index exStreams (some "jpn") = some 3 ∧
      get_audio_stream_index exStreams (some "fre") = some 1) := by
  refine ⟨?_, ?_, ?_, ?_, by decide, by decide⟩
  · rw [get_audio_stream_index_eq streams l hl]
    cases haud : audio_streams streams with
    | nil => simp
    | cons a rest =>
      obtain ⟨i0, s0⟩ := a
      cases hs : sorted_candidates streams l with
      | nil => simp
      | cons c cs => simp
  · intro i s hhead
    have hs : ∃ cs, sorted_candidates streams l = (i, s) :: cs := by
      unfold sorted_candidates
      cases hx : (lang_candidates streams l).filter
          (fun p => !(has_commentary p.2.title)) with
      | nil => rw [hx] at hhead; simp at hhead
      | cons c cs =>
        rw [hx] at hhead
        simp at hhead
        exact ⟨cs ++ (lang_candidates streams l).filter
          (fun p => has_commentary p.2.title), by rw [hhead]; rfl⟩
    obtain ⟨cs, hs⟩ := hs
    have hmem : (i, s) ∈ audio_streams streams := by
      have h1 : (i, s) ∈ sorted_candidates streams l := by
        rw [hs]; exact List.mem_cons_self _ _
      unfold sorted_candidates at h1
      rcases List.mem_append.mp h1 with h | h
      · exact List.mem_of_mem_filter (List.mem_of_mem_filter h)
      · exact List.mem_of_mem_filter (List.mem_of_mem_filter h)
    rw [get_audio_stream_index_eq streams l hl]
    cases haud : audio_streams streams with
    | nil => rw [haud] at hmem; simp at hmem
    | cons a rest =>
      obtain ⟨i0, s0⟩ := a
      rw [hs]
  · intro hnc i s hhead
    have hall : (lang_candidates streams l).filter
        (fun p => has_commentary p.2.title) = lang_candidates streams l := by
      rw [List.filter_eq_self]
      intro a ha
      by_contra hcomm
      have hx : a ∈ (lang_candidates streams l).filter
          (fun p => !(has_commentary p.2.title)) :=
        List.mem_filter.mpr ⟨ha, by simpa using hcomm⟩
      rw [hnc] at hx
      simp at hx
    have hcand : ∃ cs, lang_candidates streams l = (i, s) :: cs := by
      cases hx : lang_candidates streams l with
      | nil => rw [hx] at hhead; simp at hhead
      | cons c cs =>
        rw [hx] at hhead
        simp at hhead
        exact ⟨cs, by rw [hhead]⟩
    obtain ⟨cs, hcand⟩ := hcand
    have hs : sorted_candidates streams l = (i, s) :: cs := by
      unfold sorted_candidates
      rw [hnc, hall, hcand]
      rfl
    have hmem : (i, s) ∈ audio_streams streams :=
      List.mem_of_mem_filter (hcand ▸ List.mem_cons_self _ _)
    rw [get_audio_stream_index_eq streams l hl]
    cases haud : audio_streams streams with
    | nil => rw [haud] at hmem; simp at hmem
    | cons a rest =>
      obtain ⟨i0, s0⟩ := a
      rw [hs]
  · intro hnone i s hhead
    have hs : sorted_candidates streams l = [] := by
      unfold sorted_candidates
      rw [hnone]
      rfl
    rw [get_audio_stream_index_eq streams l hl]
    cases haud : audio_streams streams with
    | nil => rw [haud] at hhead; simp at hhead
    | cons a rest =>
      obtain ⟨i0, s0⟩ := a
      rw [haud] at hhead
      simp at hhead
      rw [hs]
      rw [← hhead.1]

/-- Witness for C5 at the concrete stream list and request `jpn`. -/
theorem stream_selection_witness :
    ("jpn" : String) ≠ "" ∧
    (((lang_candidates exStreams "jpn").filter
        (fun p => !(has_commentary p.2.title))).head? =
      some (3, ⟨"audio", "jpn", "Japanese"⟩) ∧
    get_audio_stream_index exStreams (some "jpn") = some 3) :=
  ⟨by decide,
    by decide,
    (stream_selection_amended exStreams "jpn" (by decide)).2.1 3
      ⟨"audio", "jpn", "Japanese"⟩ (by decide)⟩

/-- A landmark fingerprint (`PeakMatcher.get_fingerprint`,
`InvariantMatcher.get_fingerprint`): a dict from hash digest (abstracted as
a natural) to anchor time, as an insertion-ordered association list with
unique keys. -/
abbrev Fingerprint := List (ℕ × ℤ)

/-- The key list of a fingerprint dict. -/
def fpKeys (fp : Fingerprint) : List ℕ := fp.map Prod.fst

/-- Dict lookup `fp[h]` for a key known to be present (0 otherwise). -/
def fpLookup (fp : Fingerprint) (h : ℕ) : ℤ :=
  ((fp.find? (fun e => e.1 == h)).map Prod.snd).getD 0

/-- The shared hash keys, `set(fp1.keys()).intersection(set(fp2.keys()))`,
enumerated in `fp1` key order (each shared key once, dict keys being
unique). -/
def matchingHashes (fp1 fp2 : Fingerprint) : List ℕ :=
  (fpKeys fp1).filter (fun h => (fpKeys fp2).contains h)

/-- The per-shared-hash time offsets `fp2[h] - fp1[h]`. -/
def timeOffsets (fp1 fp2 : Fingerprint) : List ℤ :=
  (matchingHashes fp1 fp2).map (fun h => fpLookup fp2 h - fpLookup fp1 h)

/-- `PeakMatcher.compare_fingerprints` (textually identical in
`InvariantMatcher`): no shared hashes gives 0; otherwise tally the offsets,
take the largest tally as the best temporal chain, and divide by the
smaller fingerprint's size (guarded against emptiness as in the source). -/
def compare_fingerprints (fp1 fp2 : Fingerprint) : ℚ :=
  if (matchingHashes fp1 fp2).isEmpty then 0
  else if 0 < min fp1.length fp2.length then
    ((((timeOffsets fp1 fp2).map
        (fun d => (timeOffsets fp1 fp2).count d)).foldr max 0 : ℕ) : ℚ) /
      ((min fp1.length fp2.length : ℕ) : ℚ)
  else 0

/-- The size of the largest group of shared hash keys that agree on a common
time offset (the specification-side reading of the best temporal chain). -/
def largestAgreeingGroup (fp1 fp2 : Fingerprint) : ℕ :=
  ((matchingHashes fp1 fp2).map (fun h =>
    ((matchingHashes fp1 fp2).filter (fun h2 =>
      fpLookup fp2 h2 - fpLookup fp1 h2 == fpLookup fp2 h - fpLookup fp1 h)).length)).foldr
    max 0

theorem count_map_eq_length_filter {α β : Type} [DecidableEq β] (f : α → β)
    (l : List α) (b : β) :
    (l.map f).count b = (l.filter (fun x => f x == b)).length := by
  induction l with
  | nil => rfl
  | cons a l ih =>
    simp only [List.map_cons, List.count_cons, List.filter_cons]
    by_cases h : f a = b
    · simp [h, ih]
    · simp [h, ih]

/-- Fingerprint A of the concrete C7 example: 100 keys `0..99`. -/
def exFpA : Fingerprint := (List.range 100).map (fun i => (i, (0 : ℤ)))

/-- Fingerprint B of the concrete C7 example: 100 keys, sharing `0..49`
with A, 40 of them at offset 7 and 10 at offset 3. -/
def exFpB : Fingerprint :=
  (List.range 50).map (fun i => (i, if i < 40 then (7 : ℤ) else 3)) ++
  (List.range 50).map (fun i => (i + 100, (0 : ℤ)))

theorem compare_fingerprints_of_disjoint (fp1 fp2 : Fingerprint)
    (hm : matchingHashes fp1 fp2 = []) : compare_fingerprints fp1 fp2 = 0 := by
  simp [compare_fingerprints, hm]

theorem compare_fingerprints_eq (fp1 fp2 : Fingerprint)
    (hm : matchingHashes fp1 fp2 ≠ []) :
    compare_fingerprints fp1 fp2 =
      (largestAgreeingGroup fp1 fp2 : ℚ) /
        ((min fp1.length fp2.length : ℕ) : ℚ) := by
  have hmin : 0 < min fp1.length fp2.length := by
    obtain ⟨h, hh⟩ := List.exists_mem_of_ne_nil _ hm
    have ha : h ∈ fpKeys fp1 := List.mem_of_mem_filter hh
    have hb : h ∈ fpKeys fp2 := by
      have := (List.mem_filter.mp hh).2
      simpa using this
    rw [lt_min_iff]
    constructor
    · have h1 : fpKeys fp1 ≠ [] := List.ne_nil_of_mem ha
      have : fp1 ≠ [] := fun hz => h1 (by simp [fpKeys, hz])
      exact List.length_pos.mpr this
    · have h2 : fpKeys fp2 ≠ [] := List.ne_nil_of_mem hb
      have : fp2 ≠ [] := fun hz => h2 (by simp [fpKeys, hz])
      exact List.length_pos.mpr this
  have hchain :
      ((timeOffsets fp1 fp2).map
        (fun d => (timeOffsets fp1 fp2).count d)).foldr max 0 =
      largestAgreeingGroup fp1 fp2 := by
    unfold largestAgreeingGroup
    congr 1
    rw [timeOffsets, List.map_map]
    apply List.map_congr_left
    intro h _
    exact count_map_eq_length_filter _ _ _
  have hne : (matchingHashes fp1 fp2).isEmpty = false := by
    cases hx : matchingHashes fp1 fp2 with
    | nil => exact absurd hx hm
    | cons a l => rfl
  rw [compare_fingerprints, hne, if_neg (by simp), if_pos hmin, hchain]

set_option maxRecDepth 100000 in
/-- Claim C7: for fingerprint dicts (duplicate-free key lists),
`compare_fingerprints fp1 fp2` is 0 when the key sets are disjoint, and
otherwise equals the size of the largest group of shared hash keys agreeing
on the offset `fp2[h] - fp1[h]`, divided by `min |fp1| |fp2|`; in
particular, 50 shared keys of which 40 agree on one offset and 10 on
another, with smaller size 100, yield confidence 0.4. -/
theorem compare_fingerprints_spec :
    (∀ fp1 fp2 : Fingerprint, (fpKeys fp1).Nodup → (fpKeys fp2).Nodup →
      (matchingHashes fp1 fp2 = [] → compare_fingerprints fp1 fp2 = 0) ∧
      (matchingHashes fp1 fp2 ≠ [] →
        compare_fingerprints fp1 fp2 =
          (largestAgreeingGroup fp1 fp2 : ℚ) /
            ((min fp1.length fp2.length : ℕ) : ℚ))) ∧
    compare_fingerprints exFpA exFpB = 2 / 5 := by
  refine ⟨fun fp1 fp2 _ _ =>
    ⟨compare_fingerprints_of_disjoint fp1 fp2, compare_fingerprints_eq fp1 fp2⟩, ?_⟩
  rw [compare_fingerprints_eq exFpA exFpB (by decide)]
  have h1 : largestAgreeingGroup exFpA exFpB = 40 := by decide
  have h2 : min exFpA.length exFpB.length = 100 := by decide
  rw [h1, h2]
  norm_num

/-- Small concrete fingerprints for the C7 witness. -/
def wFpA : Fingerprint := [(0, 0), (1, 5)]

/-- Small concrete fingerprints for the C7 witness. -/
def wFpB : Fingerprint := [(1, 9), (2, 4)]

/-- Witness for C7 at small concrete fingerprints. -/
theorem compare_fingerprints_spec_witness :
    (fpKeys wFpA).Nodup ∧ (fpKeys wFpB).Nodup ∧ matchingHashes wFpA wFpB ≠ [] ∧
    compare_fingerprints wFpA wFpB =
      (largestAgreeingGroup wFpA wFpB : ℚ) /
        ((min wFpA.length wFpB.length : ℕ) : ℚ) :=
  ⟨by decide, by decide, by decide,
    (compare_fingerprints_spec.1 wFpA wFpB (by decide) (by decide)).2 (by decide)⟩

open Classical in
/-- `MFCCMatcher._cosine_similarity` over real vectors (floats become reals
here because the value divides by Euclidean norms): `np.dot` over the
zipped lists, `np.linalg.norm` as the square root of the sum of squares,
and 0 when either norm is zero. -/
noncomputable def cosine_similarity (a b : List ℝ) : ℝ :=
  if Real.sqrt ((a.map (fun x => x * x)).sum) = 0 ∨
      Real.sqrt ((b.map (fun x => x * x)).sum) = 0 then 0
  else
    ((a.zip b).map (fun p => p.1 * p.2)).sum /
      (Real.sqrt ((a.map (fun x => x * x)).sum) *
        Real.sqrt ((b.map (fun x => x * x)).sum))

/-- `MFCCMatcher.compare`, given the two extracted feature vectors (`none`
models a failed `_get_mfcc_features`). -/
noncomputable def MFCC_compare (ref_features remux_features : Option (List ℝ)) :
    ℝ × String :=
  match ref_features, remux_features with
  | some a, some b => (cosine_similarity a b, "MFCC similarity")
  | _, _ => (0, "Failed to extract MFCC features")

/-- Claim C1 fails on the code: `BaseMatcher.compare`'s docstring documents
the returned confidence as lying in 0..1 (with -1 as the batch failure
sentinel), but `MFCCMatcher.compare` returns a raw cosine similarity, which
on the feature-vector pair [3, 4] and [0, -1] evaluates to -4/5 — outside
[0,1] and distinct from the sentinel. -/
theorem mfcc_cosine_out_of_range :
    (MFCC_compare (some [3, 4]) (some [0, -1])).1 = -4/5 ∧
    ¬ (0 ≤ (MFCC_compare (some [3, 4]) (some [0, -1])).1) ∧
    (MFCC_compare (some [3, 4]) (some [0, -1])).1 ≠ -1 := by
  have hval : cosine_similarity [3, 4] [0, -1] = -4/5 := by
    unfold cosine_similarity
    have ha : (([3, 4] : List ℝ).map (fun x => x * x)).sum = 25 := by norm_num
    have hb : (([0, -1] : List ℝ).map (fun x => x * x)).sum = 1 := by norm_num
    rw [ha, hb]
    have hsa : Real.sqrt 25 = 5 := by
      rw [show (25 : ℝ) = 5 ^ 2 by norm_num,
        Real.sqrt_sq (by norm_num : (0:ℝ) ≤ 5)]
    rw [hsa, Real.sqrt_one, if_neg (by norm_num)]
    norm_num [List.zip_cons_cons]
  have hfst : (MFCC_compare (some [3, 4]) (some [0, -1])).1 =
      cosine_similarity [3, 4] [0, -1] := rfl
  rw [hfst, hval]
  norm_num

/-- Abstract per-frame hash record (the `(phash, dhash)` string pair of
`_get_video_hashes`, whose content the claim does not inspect). -/
abbrev FrameHash := ℕ

/-- Python truthiness of an optional list (`None` and `[]` are falsy). -/
def truthyList (o : Option (List FrameHash)) : Bool :=
  match o with
  | none => false
  | some l => !l.isEmpty

/-- `PerceptualHashMatcher._get_video_hashes`, as a function of the current
cache entry for the file, the available duration (`none` when neither the
cache nor a fresh probe yields one), and the frame-hash list the extraction
loop produces. Returns the call's result together with the new cache
entry: a truthy cache entry is returned as is; otherwise extraction runs,
a nonempty hash list is cached unconditionally, and the result is the list
only when it has more than 10 entries. -/
def get_video_hashes (cached : Option (List FrameHash)) (duration : Option ℚ)
    (extracted : List FrameHash) :
    Option (List FrameHash) × Option (List FrameHash) :=
  if truthyList cached then (cached, cached)
  else
    match duration with
    | none => (none, cached)
    | some _ =>
      ((if 10 < extracted.length then some extracted else none),
        if extracted.isEmpty then cached else some extracted)

/-- `PerceptualHashMatcher.compare`, given each side's `_get_video_hashes`
result and parameterized by the numeric sequence alignment
`_compare_hash_sequences` (whose score/offset values the claim does not
touch). -/
def phash_compare (cmp : List FrameHash → List FrameHash → ℚ × ℤ)
    (ref_hashes remux_hashes : Option (List FrameHash)) : ℚ × String :=
  if !truthyList ref_hashes || !truthyList remux_hashes then
    (0, "Failed to extract video frames")
  else
    ((cmp (ref_hashes.getD []) (remux_hashes.getD [])).1,
      "Video pHash, offset=" ++
        toString (cmp (ref_hashes.getD []) (remux_hashes.getD [])).2)

/-- Claim C10: if extraction yields between 1 and 10 valid hashed frames,
the first `_get_video_hashes` call caches the short sequence but returns
nothing, so that call's `compare` reports the frame-extraction failure;
every subsequent call returns the cached short sequence unconditionally,
so the more-than-10-frames requirement binds only the first, uncached
extraction and a later compare proceeds on the short sequence (reporting
the alignment info string, not the failure). -/
theorem phash_short_sequence (d : ℚ) (ext : List FrameHash)
    (h1 : ext ≠ []) (h2 : ext.length ≤ 10) :
    get_video_hashes none (some d) ext = (none, some ext) ∧
    (∀ d2 ext2, get_video_hashes (some ext) d2 ext2 = (some ext, some ext)) ∧
    (∀ cmp other,
      (phash_compare cmp (get_video_hashes none (some d) ext).1 other).2 =
        "Failed to extract video frames") ∧
    (∀ cmp, (phash_compare cmp (some ext) (some ext)).2 =
      "Video pHash, offset=" ++ toString (cmp ext ext).2) := by
  have hlen : ¬ (10 < ext.length) := Nat.not_lt.mpr h2
  have hemp : ext.isEmpty = false := by
    cases ext with
    | nil => exact absurd rfl h1
    | cons a l => rfl
  refine ⟨?_, ?_, ?_, ?_⟩
  · simp [get_video_hashes, truthyList, hlen, hemp]
  · intro d2 ext2
    simp [get_video_hashes, truthyList, hemp]
  · intro cmp other
    have hr : (get_video_hashes none (some d) ext).1 = none := by
      simp [get_video_hashes, truthyList, hlen]
    rw [hr]
    simp [phash_compare, truthyList]
  · intro cmp
    simp [phash_compare, truthyList, hemp]

/-- Witness for C10 at a concrete 3-frame extraction. -/
theorem phash_short_sequence_witness :
    ([0, 1, 2] : List FrameHash) ≠ [] ∧
    ([0, 1, 2] : List FrameHash).length ≤ 10 ∧
    get_video_hashes none (some 1) [0, 1, 2] = (none, some [0, 1, 2]) ∧
    get_video_hashes (some [0, 1, 2]) none [] = (some [0, 1, 2], some [0, 1, 2]) :=
  ⟨by decide, by decide,
    (phash_short_sequence 1 [0, 1, 2] (by decide) (by decide)).1,
    (phash_short_sequence 1 [0, 1, 2] (by decide) (by decide)).2.1 none []⟩

/-- An event yielded by the pipeline generator: a progress report or a
match record (the optional `status` field is `"Unused"` on unused-reference
events). -/
inductive Ev
  | progress (message : String) (value : ℤ)
  | matchEv (remux_path : Option ℕ) (reference_path : Option ℕ)
      (confidence : ℚ) (info : String) (status : Option String)
deriving DecidableEq

/-- Whether an event is a match event. -/
def Ev.isMatch : Ev → Bool
  | .matchEv _ _ _ _ _ => true
  | .progress _ _ => false

/-- Environment of the exhaustive strategy: the selected matcher's
`compare`, the duration cache consulted by `_should_compare`, and the
confidence threshold. -/
structure ExhEnv where
  compare : ℕ → ℕ → ℚ × String
  durations : ℕ → Option ℚ
  threshold : ℚ

/-- Python truthiness of an optional float: `None` and `0.0` are falsy. -/
def truthyFloat (o : Option ℚ) : Bool :=
  match o with
  | none => false
  | some x => x != 0

/-- `MatchingPipeline._should_compare`: skip a pair only when both cached
durations are truthy and differ by more than 5 seconds. The function reads
nothing but the duration cache (its only argument), so it never probes. -/
def shouldCompare (dur : ℕ → Option ℚ) (ref remux : ℕ) : Bool :=
  if truthyFloat (dur ref) && truthyFloat (dur remux) then
    if |(dur ref).getD 0 - (dur remux).getD 0| > 5 then false else true
  else true

/-- Best-match record per remux (`best_matches[remux]`). -/
structure BestInfo where
  score : ℚ
  ref : Option ℕ
  info : String
deriving DecidableEq

/-- Initial best-match record: score -1, no reference. -/
def initBest : BestInfo := ⟨-1, none, ""⟩

/-- Percentage `int((done / total) * 100)` of the exhaustive loop (exact
arithmetic in place of float truncation; no claim depends on the in-loop
percentages). -/
def progressValue (done total : ℕ) : ℤ :=
  if 0 < total then ((100 * done) / total : ℕ) else 0

/-- Percentage `int((done / total) * 50)` of the extraction loops. -/
def fpProgressValue (done total : ℕ) : ℤ :=
  if 0 < total then ((50 * done) / total : ℕ) else 0

/-- State threaded through `_run_exhaustive_compare`: the per-remux best
table, the comparison counter, the number of `self._running` reads so far,
whether some read observed `False` (a loop break), the events yielded so
far, and the `(ref, remux)` pairs on which `matcher.compare` was invoked. -/
structure ExhState where
  best : ℕ → BestInfo
  comparisons_done : ℕ
  chk : ℕ
  halted : Bool
  evs : List Ev
  calls : List (ℕ × ℕ)

/-- Initial loop state. -/
def initExhState : ExhState := ⟨fun _ => initBest, 0, 0, false, [], []⟩

/-- Inner loop of `_run_exhaustive_compare` over the remuxes for one
reference: check the flag, yield a progress event, apply the duration
pre-filter, compare, and keep the strictly better score. -/
def exhInner (E : ExhEnv) (running : ℕ → Bool) (total : ℕ) (ref : ℕ) :
    List ℕ → ExhState → ExhState
  | [], st => st
  | remux :: rest, st =>
    if running st.chk = false then
      { st with chk := st.chk + 1, halted := true }
    else
      let done := st.comparisons_done + 1
      let st1 : ExhState :=
        { st with
          chk := st.chk + 1
          comparisons_done := done
          evs := st.evs ++ [Ev.progress
            ("Comparing " ++ toString ref ++ " to " ++ toString remux)
            (progressValue done total)] }
      if shouldCompare E.durations ref remux = false then
        exhInner E running total ref rest st1
      else
        let st2 : ExhState := { st1 with calls := st1.calls ++ [(ref, remux)] }
        let st3 : ExhState :=
          if (E.compare ref remux).1 > (st2.best remux).score then
            { st2 with best := fun m => if m = remux then
                ⟨(E.compare ref remux).1, some ref, (E.compare ref remux).2⟩
              else st2.best m }
          else st2
        exhInner E running total ref rest st3

/-- Outer loop of `_run_exhaustive_compare` over the references. -/
def exhOuter (E : ExhEnv) (running : ℕ → Bool) (total : ℕ) (remuxes : List ℕ) :
    List ℕ → ExhState → ExhState
  | [], st => st
  | ref :: rest, st =>
    if running st.chk = false then
      { st with chk := st.chk + 1, halted := true }
    else
      exhOuter E running total remuxes rest
        (exhInner E running total ref remuxes { st with chk := st.chk + 1 })

/-- The loop phase of `_run_exhaustive_compare`. -/
def runExhaustiveLoop (E : ExhEnv) (running : ℕ → Bool)
    (refs remuxes : List ℕ) : ExhState :=
  exhOuter E running (refs.length * remuxes.length) remuxes refs initExhState

/-- The per-remux match events of the emission phase: the best reference
when it exists with a nonnegative score, otherwise "No suitable match
found". -/
def exhMatchEvents (remuxes : List ℕ) (best : ℕ → BestInfo) : List Ev :=
  remuxes.map (fun m =>
    if (best m).ref.isSome && decide (0 ≤ (best m).score) then
      Ev.matchEv (some m) (best m).ref (best m).score (best m).info none
    else
      Ev.matchEv (some m) none 0 "No suitable match found" none)

/-- The references recorded in `used_references`: best reference of some
remux with a score at or above the threshold. -/
def usedReferences (E : ExhEnv) (remuxes : List ℕ) (best : ℕ → BestInfo) :
    List ℕ :=
  remuxes.filterMap (fun m =>
    if (best m).ref.isSome && decide (E.threshold ≤ (best m).score) then
      (best m).ref
    else none)

/-- The unused-reference events of the emission phase. -/
def exhUnusedEvents (E : ExhEnv) (refs remuxes : List ℕ) (best : ℕ → BestInfo) :
    List Ev :=
  (refs.filter (fun r => !((usedReferences E remuxes best).contains r))).map
    (fun r => Ev.matchEv none (some r) 0 "Reference file not used" (some "Unused"))

/-- `_run_exhaustive_compare`: the loop phase, then — only when the
post-loop flag read (`if self._running:`) returns `True` — the emission
phase. -/
def exhEvents (E : ExhEnv) (running : ℕ → Bool) (refs remuxes : List ℕ) :
    List Ev :=
  let st := runExhaustiveLoop E running refs remuxes
  if running st.chk then
    st.evs ++ exhMatchEvents remuxes st.best ++
      exhUnusedEvents E refs remuxes st.best
  else st.evs

/-- Environment of the fingerprint-batch strategy, for an abstract
fingerprint type. -/
structure FpEnv (φ : Type) where
  get_fingerprint : ℕ → Option φ
  compare_fingerprints : φ → φ → ℚ
  threshold : ℚ
  mode : String

/-- State threaded through `_run_fingerprint_batch`. -/
structure FpState (φ : Type) where
  ref_fps : List (ℕ × φ)
  remux_fps : List (ℕ × φ)
  best : ℕ → ℚ × Option ℕ
  files_done : ℕ
  chk : ℕ
  halted : Bool
  evs : List Ev

/-- Initial batch state: every remux starts at score -1 with no
reference. -/
def initFpState (φ : Type) : FpState φ :=
  ⟨[], [], fun _ => (-1, none), 0, 0, false, []⟩

/-- The two extraction loops of `_run_fingerprint_batch` (textually
identical in the source up to the target dict and message prefix). An
observed `False` flag makes the generator return, modelled by the `halted`
flag consulted by `runFpBatch`. -/
def fpExtract {φ : Type} (F : FpEnv φ) (running : ℕ → Bool) (total : ℕ)
    (isRef : Bool) : List ℕ → FpState φ → FpState φ
  | [], st => st
  | p :: rest, st =>
    if running st.chk = false then { st with chk := st.chk + 1, halted := true }
    else
      let done := st.files_done + 1
      let st1 : FpState φ :=
        { st with
          chk := st.chk + 1
          files_done := done
          evs := st.evs ++ [Ev.progress
            ((if isRef then "Analyzing ref: " else "Analyzing remux: ") ++
              toString p)
            (fpProgressValue done total)] }
      let st2 : FpState φ :=
        match F.get_fingerprint p with
        | some fp =>
          if isRef then { st1 with ref_fps := st1.ref_fps ++ [(p, fp)] }
          else { st1 with remux_fps := st1.remux_fps ++ [(p, fp)] }
        | none => st1
      fpExtract F running total isRef rest st2

/-- Inner comparison loop of `_run_fingerprint_batch` (over the reference
fingerprints, for one remux fingerprint); yields nothing. -/
def fpCompareInner {φ : Type} (F : FpEnv φ) (running : ℕ → Bool) (remux : ℕ)
    (rfp : φ) : List (ℕ × φ) → FpState φ → FpState φ
  | [], st => st
  | (rp, f) :: rest, st =>
    if running st.chk = false then { st with chk := st.chk + 1, halted := true }
    else
      let st1 : FpState φ := { st with chk := st.chk + 1 }
      let st2 : FpState φ :=
        if F.compare_fingerprints f rfp > (st1.best remux).1 then
          { st1 with best := fun m => if m = remux then
              (F.compare_fingerprints f rfp, some rp) else st1.best m }
        else st1
      fpCompareInner F running remux rfp rest st2

/-- Outer comparison loop of `_run_fingerprint_batch` (over the remux
fingerprints). -/
def fpCompareOuter {φ : Type} (F : FpEnv φ) (running : ℕ → Bool) :
    List (ℕ × φ) → FpState φ → FpState φ
  | [], st => st
  | (m, mf) :: rest, st =>
    let st1 := fpCompareInner F running m mf st.ref_fps st
    if st1.halted then st1 else fpCompareOuter F running rest st1

/-- Python `mode.replace('_', ' ').capitalize()` on the character list
(`str.capitalize` uppercases the head and lowercases the rest). -/
def fpModeLabel (mode : String) : List Char :=
  match mode.toList.map (fun c => if c = '_' then ' ' else c) with
  | [] => []
  | c :: rest => c.toUpper :: rest.map Char.toLower

/-- The emission phase of `_run_fingerprint_batch`: one match event per
remux (confidence is the raw best score, possibly the -1 sentinel; the
`%`-formatted number in the info string is abstracted away), then one
unused-reference event per reference never used at or above the
threshold. -/
def fpEmit {φ : Type} (F : FpEnv φ) (refs remuxes : List ℕ)
    (best : ℕ → ℚ × Option ℕ) : List Ev :=
  (remuxes.map (fun m =>
    Ev.matchEv (some m) (best m).2 (best m).1
      (if 0 ≤ (best m).1 then String.mk (fpModeLabel F.mode) ++ " similarity"
       else "Fingerprint failed") none)) ++
  ((refs.filter (fun r => !((remuxes.filterMap (fun m =>
      if (best m).2.isSome && decide (F.threshold ≤ (best m).1) then (best m).2
      else none)).contains r))).map
    (fun r => Ev.matchEv none (some r) 0 "Reference file not used" (some "Unused")))

/-- `_run_fingerprint_batch`: extraction of both pools, the mid progress
event, the comparison loops, and the emission phase; an observed `False`
flag (`halted`) returns from the generator, skipping everything below. -/
def runFpBatch {φ : Type} (F : FpEnv φ) (running : ℕ → Bool)
    (refs remuxes : List ℕ) : FpState φ :=
  let total := refs.length + remuxes.length
  let st1 := fpExtract F running total true refs (initFpState φ)
  if st1.halted then st1 else
  let st2 := fpExtract F running total false remuxes st1
  if st2.halted then st2 else
  let st3 : FpState φ :=
    { st2 with evs := st2.evs ++ [Ev.progress "Comparing fingerprints..." 50] }
  let st4 := fpCompareOuter F running st3.remux_fps st3
  if st4.halted then st4 else
  { st4 with evs := st4.evs ++ fpEmit F refs remuxes st4.best }

/-- The fingerprint-capable modes routed to the batch strategy. -/
def audio_fingerprinters : List String :=
  ["chromaprint", "peak_matcher", "invariant_matcher"]

/-- The modes for which `_get_matcher` returns a matcher. -/
def validModes : List String :=
  ["correlation", "chromaprint", "peak_matcher", "invariant_matcher", "mfcc",
   "phash", "scene"]

/-- `MatchingPipeline.match`: an invalid mode yields a single progress
event; otherwise a start event, the selected strategy's events, and the
terminal "Matching complete" event at 100. -/
def pipelineMatch {φ : Type} (E : ExhEnv) (F : FpEnv φ) (mode : String)
    (running : ℕ → Bool) (refs remuxes : List ℕ) : List Ev :=
  if validModes.contains mode = false then
    [Ev.progress "Invalid matcher mode" 0]
  else
    Ev.progress ("Starting " ++ mode ++ " matching...") 0 ::
    ((if audio_fingerprinters.contains mode then
        (runFpBatch F running refs remuxes).evs
      else exhEvents E running refs remuxes) ++
      [Ev.progress "Matching complete" 100])

/-- Environment for the C8 example: every comparison scores 1. -/
def envC8 : ExhEnv := ⟨fun _ _ => (1, "corr"), fun _ => none, 1⟩

/-- A trivial fingerprint environment (unused by exhaustive modes). -/
def fpEnvTriv : FpEnv Unit := ⟨fun _ => none, fun _ _ => 0, 1, "chromaprint"⟩

/-- Claim C8: the exhaustive strategy does not enforce exclusivity across
remuxes — with one reference and two remuxes both scoring 1 against it,
the pipeline emits two match events naming the same reference for the two
different remux files. -/
theorem exhaustive_nonexclusive :
    Ev.matchEv (some 1) (some 0) 1 "corr" none ∈
      pipelineMatch envC8 fpEnvTriv "correlation" (fun _ => true) [0] [1, 2] ∧
    Ev.matchEv (some 2) (some 0) 1 "corr" none ∈
      pipelineMatch envC8 fpEnvTriv "correlation" (fun _ => true) [0] [1, 2] := by
  constructor <;> decide

theorem exhInner_evs_progress (E : ExhEnv) (running : ℕ → Bool)
    (total ref : ℕ) :
    ∀ (remuxes : List ℕ) (st : ExhState),
      (∀ e ∈ st.evs, e.isMatch = false) →
      ∀ e ∈ (exhInner E running total ref remuxes st).evs, e.isMatch = false := by
  intro remuxes
  induction remuxes with
  | nil => intro st h; simpa [exhInner] using h
  | cons remux rest ih =>
    intro st h
    have h1 : ∀ e ∈ st.evs ++ [Ev.progress
        ("Comparing " ++ toString ref ++ " to " ++ toString remux)
        (progressValue (st.comparisons_done + 1) total)], e.isMatch = false := by
      intro e he
      rcases List.mem_append.mp he with he | he
      · exact h e he
      · simp at he; rw [he]; rfl
    rw [exhInner]
    by_cases hr : running st.chk = false
    · rw [if_pos hr]
      simpa using h
    · rw [if_neg hr]
      by_cases hsc : shouldCompare E.durations ref remux = false
      · simp only [hsc, if_true]
        exact ih _ h1
      · simp only [hsc, if_false]
        by_cases hcmp : (E.compare ref remux).1 >
            ((⟨st.best, st.comparisons_done + 1, st.chk + 1, st.halted,
              st.evs ++ [Ev.progress
                ("Comparing " ++ toString ref ++ " to " ++ toString remux)
                (progressValue (st.comparisons_done + 1) total)],
              st.calls ++ [(ref, remux)]⟩ : ExhState).best remux).score
        · simp only [if_pos hcmp]
          exact ih _ h1
        · simp only [if_neg hcmp]
          exact ih _ h1

theorem exhOuter_evs_progress (E : ExhEnv) (running : ℕ → Bool)
    (total : ℕ) (remuxes : List ℕ) :
    ∀ (refs : List ℕ) (st : ExhState),
      (∀ e ∈ st.evs, e.isMatch = false) →
      ∀ e ∈ (exhOuter E running total remuxes refs st).evs, e.isMatch = false := by
  intro refs
  induction refs with
  | nil => intro st h; simpa [exhOuter] using h
  | cons ref rest ih =>
    intro st h
    rw [exhOuter]
    by_cases hr : running st.chk = false
    · rw [if_pos hr]
      simpa using h
    · rw [if_neg hr]
      exact ih _ (exhInner_evs_progress E running total ref remuxes _ (by simpa using h))

theorem runExhaustiveLoop_evs_progress (E : ExhEnv) (running : ℕ → Bool)
    (refs remuxes : List ℕ) :
    ∀ e ∈ (runExhaustiveLoop E running refs remuxes).evs, e.isMatch = false := by
  exact exhOuter_evs_progress E running _ remuxes refs initExhState
    (by simp [initExhState])

theorem count_filter_nodup (p : ℕ → Bool) (l : List ℕ) (hnd : l.Nodup) (r : ℕ) :
    (l.filter p).count r = if r ∈ l ∧ p r = true then 1 else 0 := by
  by_cases hm : r ∈ l ∧ p r = true
  · rw [if_pos hm]
    exact List.count_eq_one_of_mem (hnd.filter p)
      (List.mem_filter.mpr ⟨hm.1, hm.2⟩)
  · rw [if_neg hm, List.count_eq_zero]
    intro hmem
    exact hm ⟨List.mem_of_mem_filter hmem, (List.mem_filter.mp hmem).2⟩

/-- Environment for the C2 counterexample: the single comparison scores 0,
below the 1 threshold but nonnegative. -/
def envC2 : ExhEnv := ⟨fun _ _ => (0, "i"), fun _ => none, 1⟩

/-- Claim C2, counterexample: with one reference (0) and one remux (1),
a comparison score of 0 and threshold 1, the completed run emits a match
event naming reference 0 as remux 1's best match at a nonnegative score,
and nevertheless also reports reference 0 unused — because
`used_references` only records best matches scoring at or above the
threshold. -/
theorem exhaustive_unused_reference_cex :
    Ev.matchEv (some 1) (some 0) 0 "i" none ∈
      exhEvents envC2 (fun _ => true) [0] [1] ∧
    Ev.matchEv none (some 0) 0 "Reference file not used" (some "Unused") ∈
      exhEvents envC2 (fun _ => true) [0] [1] := by
  constructor <;> decide

/-- Claim C2, amended: in a completed exhaustive run over duplicate-free
file lists, one unused-reference event is emitted for exactly those
references never selected as some remux's best match with a score at or
above the threshold (not merely a nonnegative score: a best match scoring
in [0, threshold) is both named in a match event and reported unused). -/
theorem exhaustive_unused_reference_amended (E : ExhEnv)
    (refs remuxes : List ℕ) (hnd : refs.Nodup) (r : ℕ) :
    (exhEvents E (fun _ => true) refs remuxes).count
        (Ev.matchEv none (some r) 0 "Reference file not used" (some "Unused")) =
      if r ∈ refs ∧ ¬ (∃ m ∈ remuxes,
          ((runExhaustiveLoop E (fun _ => true) refs remuxes).best m).ref = some r ∧
          E.threshold ≤ ((runExhaustiveLoop E (fun _ => true) refs remuxes).best m).score)
      then 1 else 0 := by
  have hevents : exhEvents E (fun _ => true) refs remuxes =
      (runExhaustiveLoop E (fun _ => true) refs remuxes).evs ++
        exhMatchEvents remuxes (runExhaustiveLoop E (fun _ => true) refs remuxes).best ++
        exhUnusedEvents E refs remuxes (runExhaustiveLoop E (fun _ => true) refs remuxes).best := by
    unfold exhEvents
    simp
  rw [hevents, List.count_append, List.count_append]
  have h0 : (runExhaustiveLoop E (fun _ => true) refs remuxes).evs.count
      (Ev.matchEv none (some r) 0 "Reference file not used" (some "Unused")) = 0 := by
    rw [List.count_eq_zero]
    intro hmem
    have := runExhaustiveLoop_evs_progress E (fun _ => true) refs remuxes _ hmem
    simp [Ev.isMatch] at this
  have h1 : (exhMatchEvents remuxes
      (runExhaustiveLoop E (fun _ => true) refs remuxes).best).count
      (Ev.matchEv none (some r) 0 "Reference file not used" (some "Unused")) = 0 := by
    rw [List.count_eq_zero]
    intro hmem
    unfold exhMatchEvents at hmem
    obtain ⟨m, _, hm⟩ := List.mem_map.mp hmem
    by_cases hc : (((runExhaustiveLoop E (fun _ => true) refs remuxes).best m).ref.isSome &&
        decide (0 ≤ ((runExhaustiveLoop E (fun _ => true) refs remuxes).best m).score)) = true
    · rw [if_pos hc] at hm
      simp at hm
    · rw [if_neg hc] at hm
      simp at hm
  rw [h0, h1]
  have hinj : Function.Injective (fun x : ℕ =>
      Ev.matchEv none (some x) 0 "Reference file not used" (some "Unused")) := by
    intro a b hab
    simpa using hab
  have h2 := List.count_map_of_injective
    (refs.filter (fun x => !((usedReferences E remuxes
      (runExhaustiveLoop E (fun _ => true) refs remuxes).best).contains x)))
    _ hinj r
  unfold exhUnusedEvents
  rw [h2, count_filter_nodup _ _ hnd]
  have hused : ∀ x : ℕ, x ∈ usedReferences E remuxes
      (runExhaustiveLoop E (fun _ => true) refs remuxes).best ↔
      ∃ m ∈ remuxes,
        ((runExhaustiveLoop E (fun _ => true) refs remuxes).best m).ref = some x ∧
        E.threshold ≤ ((runExhaustiveLoop E (fun _ => true) refs remuxes).best m).score := by
    intro x
    unfold usedReferences
    rw [List.mem_filterMap]
    constructor
    · rintro ⟨m, hm, hf⟩
      by_cases hc : (((runExhaustiveLoop E (fun _ => true) refs remuxes).best m).ref.isSome &&
          decide (E.threshold ≤ ((runExhaustiveLoop E (fun _ => true) refs remuxes).best m).score)) = true
      · rw [if_pos hc] at hf
        rw [Bool.and_eq_true] at hc
        exact ⟨m, hm, hf, of_decide_eq_true hc.2⟩
      · rw [if_neg hc] at hf
        exact absurd hf (by simp)
    · rintro ⟨m, hm, hx1, hx2⟩
      refine ⟨m, hm, ?_⟩
      rw [if_pos ?_]
      · exact hx1
      · rw [Bool.and_eq_true]
        exact ⟨by rw [hx1]; rfl, decide_eq_true hx2⟩
  have hcond : (r ∈ refs ∧ (!((usedReferences E remuxes
      (runExhaustiveLoop E (fun _ => true) refs remuxes).best).contains r)) = true) ↔
      (r ∈ refs ∧ ¬ (∃ m ∈ remuxes,
        ((runExhaustiveLoop E (fun _ => true) refs remuxes).best m).ref = some r ∧
        E.threshold ≤ ((runExhaustiveLoop E (fun _ => true) refs remuxes).best m).score)) := by
    apply and_congr_right
    intro _
    rw [Bool.not_eq_true']
    constructor
    · intro hf hex
      have hmem : r ∈ usedReferences E remuxes
          (runExhaustiveLoop E (fun _ => true) refs remuxes).best := (hused r).mpr hex
      have hct : (usedReferences E remuxes
          (runExhaustiveLoop E (fun _ => true) refs remuxes).best).contains r = true :=
        List.elem_iff.mpr hmem
      rw [hct] at hf
      cases hf
    · intro hnex
      by_contra hne
      have : (usedReferences E remuxes
          (runExhaustiveLoop E (fun _ => true) refs remuxes).best).contains r = true := by
        cases hx : (usedReferences E remuxes
            (runExhaustiveLoop E (fun _ => true) refs remuxes).best).contains r
        · exact absurd hx hne
        · rfl
      exact hnex ((hused r).mp (List.elem_iff.mp this))
  rw [if_congr hcond rfl rfl]
  simp

/-- Witness for C2 at the counterexample environment (the condition is
false there, so the count is 0 for an already-used reference, namely none;
instantiated at reference 0 where the count is 1). -/
theorem exhaustive_unused_reference_witness :
    ([0] : List ℕ).Nodup ∧
    (exhEvents envC2 (fun _ => true) [0] [1]).count
        (Ev.matchEv none (some 0) 0 "Reference file not used" (some "Unused")) =
      if 0 ∈ ([0] : List ℕ) ∧ ¬ (∃ m ∈ ([1] : List ℕ),
          ((runExhaustiveLoop envC2 (fun _ => true) [0] [1]).best m).ref = some 0 ∧
          envC2.threshold ≤ ((runExhaustiveLoop envC2 (fun _ => true) [0] [1]).best m).score)
      then 1 else 0 :=
  ⟨by decide, exhaustive_unused_reference_amended envC2 [0] [1] (by decide) 0⟩

theorem exhInner_calls (E : ExhEnv) (total ref : ℕ) :
    ∀ (remuxes : List ℕ) (st : ExhState),
      (exhInner E (fun _ => true) total ref remuxes st).calls =
        st.calls ++ (remuxes.filter
          (fun m => shouldCompare E.durations ref m)).map (fun m => (ref, m)) := by
  intro remuxes
  induction remuxes with
  | nil => intro st; simp [exhInner]
  | cons remux rest ih =>
    intro st
    have hrun : ¬ ((fun _ : ℕ => true) st.chk = false) := by simp
    rw [exhInner, if_neg hrun]
    by_cases hsc : shouldCompare E.durations ref remux = false
    · simp only [hsc, if_true]
      rw [ih]
      simp [List.filter_cons, hsc]
    · have hsc2 : shouldCompare E.durations ref remux = true := by
        cases hx : shouldCompare E.durations ref remux
        · exact absurd hx hsc
        · rfl
      rw [if_neg (by simp [hsc2])]
      rw [ih]
      split <;> simp [List.filter_cons, hsc2]

theorem exhOuter_calls (E : ExhEnv) (total : ℕ) (remuxes : List ℕ) :
    ∀ (refs : List ℕ) (st : ExhState),
      (exhOuter E (fun _ => true) total remuxes refs st).calls =
        st.calls ++ refs.flatMap (fun r => (remuxes.filter
          (fun m => shouldCompare E.durations r m)).map (fun m => (r, m))) := by
  intro refs
  induction refs with
  | nil => intro st; simp [exhOuter]
  | cons ref rest ih =>
    intro st
    have hrun : ¬ ((fun _ : ℕ => true) st.chk = false) := by simp
    rw [exhOuter, if_neg hrun, ih, exhInner_calls]
    simp [List.flatMap_cons, List.append_assoc]

theorem runExhaustiveLoop_calls (E : ExhEnv) (refs remuxes : List ℕ) :
    (runExhaustiveLoop E (fun _ => true) refs remuxes).calls =
      refs.flatMap (fun r => (remuxes.filter
        (fun m => shouldCompare E.durations r m)).map (fun m => (r, m))) := by
  unfold runExhaustiveLoop
  rw [exhOuter_calls]
  simp [initExhState]

/-- Environment for the C6 counterexample: reference 0 has cached duration
0.0 (falsy in Python), remux 1 has 10.0. -/
def envC6 : ExhEnv :=
  ⟨fun _ _ => (1, "i"), fun p => if p = 0 then some 0 else some 10, 1⟩

/-- Claim C6, counterexample: with cached durations 0.0 s and 10.0 s, both
durations are known in the cache and differ by more than 5 s, yet the pair
is not skipped — `compare` is invoked on it — because `if ref_duration and
remux_duration:` treats the float 0.0 as falsy and disables the filter. -/
theorem duration_prefilter_cex :
    envC6.durations 0 = some 0 ∧ envC6.durations 1 = some 10 ∧
    |((0 : ℚ)) - 10| > 5 ∧
    (runExhaustiveLoop envC6 (fun _ => true) [0] [1]).calls = [(0, 1)] := by
  refine ⟨rfl, rfl, by norm_num, ?_⟩
  rw [runExhaustiveLoop_calls]
  simp [shouldCompare, truthyFloat, envC6]

/-- Claim C6, amended: in a completed exhaustive run, a `(reference,
remux)` pair is skipped (`compare` is never invoked on it) exactly when
both files' cached durations are truthy — present and nonzero, the
Python-truthiness caveat the original claim misses — and differ by more
than 5 seconds; the filter reads only the duration cache (it takes nothing
else as input), so it never triggers a fresh probe. Concretely, cached
durations 1200.0 s and 1210.0 s make the pair skipped. -/
theorem duration_prefilter_amended (E : ExhEnv) (refs remuxes : List ℕ)
    (r m : ℕ) :
    ((r, m) ∈ (runExhaustiveLoop E (fun _ => true) refs remuxes).calls ↔
      r ∈ refs ∧ m ∈ remuxes ∧ shouldCompare E.durations r m = true) ∧
    (shouldCompare E.durations r m = false ↔
      truthyFloat (E.durations r) = true ∧ truthyFloat (E.durations m) = true ∧
      |(E.durations r).getD 0 - (E.durations m).getD 0| > 5) ∧
    shouldCompare (fun p => if p = 0 then some 1200 else some 1210) 0 1 = false := by
  refine ⟨?_, ?_, ?_⟩
  · rw [runExhaustiveLoop_calls, List.mem_flatMap]
    constructor
    · rintro ⟨a, ha, hmem⟩
      obtain ⟨b, hb, heq⟩ := List.mem_map.mp hmem
      obtain ⟨hb1, hb2⟩ := List.mem_filter.mp hb
      have har : a = r := (Prod.mk.injEq _ _ _ _).mp heq |>.1
      have hbm : b = m := (Prod.mk.injEq _ _ _ _).mp heq |>.2
      subst har
      subst hbm
      exact ⟨ha, hb1, hb2⟩
    · rintro ⟨h1, h2, h3⟩
      exact ⟨r, h1, List.mem_map.mpr ⟨m, List.mem_filter.mpr ⟨h2, h3⟩, rfl⟩⟩
  · unfold shouldCompare
    by_cases hb : (truthyFloat (E.durations r) && truthyFloat (E.durations m)) = true
    · rw [if_pos hb]
      rw [Bool.and_eq_true] at hb
      by_cases habs : |(E.durations r).getD 0 - (E.durations m).getD 0| > 5
      · rw [if_pos habs]
        simp [hb.1, hb.2, habs]
      · rw [if_neg habs]
        simp [habs]
    · rw [if_neg hb]
      rw [Bool.and_eq_true] at hb
      constructor
      · intro hfalse
        exact absurd hfalse (by simp)
      · rintro ⟨hx1, hx2, _⟩
        exact absurd ⟨hx1, hx2⟩ hb
  · simp [shouldCompare, truthyFloat]
    norm_num

/-- Witness for C6 at the concrete 1200 s / 1210 s durations. -/
theorem duration_prefilter_witness :
    shouldCompare (fun p => if p = 0 then some 1200 else some 1210) 0 1 = false :=
  (duration_prefilter_amended envC6 [0] [1] 0 1).2.2

theorem fpExtract_evs_progress {φ : Type} (F : FpEnv φ) (running : ℕ → Bool)
    (total : ℕ) (isRef : Bool) :
    ∀ (ps : List ℕ) (st : FpState φ),
      (∀ e ∈ st.evs, e.isMatch = false) →
      ∀ e ∈ (fpExtract F running total isRef ps st).evs, e.isMatch = false := by
  intro ps
  induction ps with
  | nil => intro st h; simpa [fpExtract] using h
  | cons p rest ih =>
    intro st h
    have h1 : ∀ e ∈ st.evs ++ [Ev.progress
        ((if isRef then "Analyzing ref: " else "Analyzing remux: ") ++ toString p)
        (fpProgressValue (st.files_done + 1) total)], e.isMatch = false := by
      intro e he
      rcases List.mem_append.mp he with he | he
      · exact h e he
      · simp at he; rw [he]; rfl
    rw [fpExtract]
    by_cases hr : running st.chk = false
    · rw [if_pos hr]
      simpa using h
    · rw [if_neg hr]
      cases hfp : F.get_fingerprint p with
      | none => exact ih _ h1
      | some fp => cases isRef <;> exact ih _ h1

theorem fpCompareInner_evs {φ : Type} (F : FpEnv φ) (running : ℕ → Bool)
    (remux : ℕ) (rfp : φ) :
    ∀ (l : List (ℕ × φ)) (st : FpState φ),
      (fpCompareInner F running remux rfp l st).evs = st.evs := by
  intro l
  induction l with
  | nil => intro st; simp [fpCompareInner]
  | cons e rest ih =>
    obtain ⟨rp, f⟩ := e
    intro st
    rw [fpCompareInner]
    by_cases hr : running st.chk = false
    · rw [if_pos hr]
    · rw [if_neg hr, ih]
      split <;> rfl

theorem fpCompareOuter_evs {φ : Type} (F : FpEnv φ) (running : ℕ → Bool) :
    ∀ (l : List (ℕ × φ)) (st : FpState φ),
      (fpCompareOuter F running l st).evs = st.evs := by
  intro l
  induction l with
  | nil => intro st; simp [fpCompareOuter]
  | cons e rest ih =>
    obtain ⟨m, mf⟩ := e
    intro st
    rw [fpCompareOuter]
    by_cases hh : (fpCompareInner F running m mf st.ref_fps st).halted = true
    · rw [if_pos hh]
      exact fpCompareInner_evs F running m mf _ _
    · rw [if_neg hh, ih, fpCompareInner_evs]

theorem runFpBatch_halted_evs {φ : Type} (F : FpEnv φ) (running : ℕ → Bool)
    (refs remuxes : List ℕ)
    (h : (runFpBatch F running refs remuxes).halted = true) :
    ∀ e ∈ (runFpBatch F running refs remuxes).evs, e.isMatch = false := by
  revert h
  simp only [runFpBatch]
  split_ifs with h1 h2 h3
  · intro _
    exact fpExtract_evs_progress F running _ true refs _ (by simp [initFpState])
  · intro _
    exact fpExtract_evs_progress F running _ false remuxes _
      (fpExtract_evs_progress F running _ true refs _ (by simp [initFpState]))
  · intro _ e he
    rw [fpCompareOuter_evs] at he
    rcases List.mem_append.mp he with he | he
    · exact fpExtract_evs_progress F running _ false remuxes _
        (fpExtract_evs_progress F running _ true refs _ (by simp [initFpState])) e he
    · simp at he; rw [he]; rfl
  · intro hcontra
    exact absurd hcontra h3

theorem pipelineMatch_getLast {φ : Type} (E : ExhEnv) (F : FpEnv φ)
    (mode : String) (running : ℕ → Bool) (refs remuxes : List ℕ)
    (h : validModes.contains mode = true) :
    (pipelineMatch E F mode running refs remuxes).getLast? =
      some (Ev.progress "Matching complete" 100) := by
  unfold pipelineMatch
  rw [if_neg (by rw [h]; simp), ← List.cons_append, List.getLast?_concat]

/-- Claim C3, amended: with the cooperative flag modelled as the schedule
of `self._running` reads, (i) every run with a valid matcher mode ends with
the terminal "Matching complete" progress event at 100, whatever the stop
schedule; (ii) in the exhaustive strategy, when the post-loop flag read
(`if self._running:`) observes false — which a monotone schedule guarantees
whenever stop() takes effect at or before the end of the comparison loop —
the run yields no match event at all; (iii) in the fingerprint-batch
strategy the same holds whenever some performed flag read observes false
(the batch halts). The original claim fails only for a fingerprint-batch
stop that no remaining read observes (see the counterexample): the emission
phase performs no flag reads, so the batch still emits every match event
after the in-flight final comparison completes. -/
theorem pipeline_stop_amended :
    (∀ (φ : Type) (E : ExhEnv) (F : FpEnv φ) (mode : String)
        (running : ℕ → Bool) (refs remuxes : List ℕ),
        validModes.contains mode = true →
      (pipelineMatch E F mode running refs remuxes).getLast? =
        some (Ev.progress "Matching complete" 100)) ∧
    (∀ (φ : Type) (E : ExhEnv) (F : FpEnv φ) (mode : String)
        (running : ℕ → Bool) (refs remuxes : List ℕ),
        validModes.contains mode = true →
        audio_fingerprinters.contains mode = false →
        running (runExhaustiveLoop E running refs remuxes).chk = false →
      ∀ e ∈ pipelineMatch E F mode running refs remuxes, e.isMatch = false) ∧
    (∀ (φ : Type) (E : ExhEnv) (F : FpEnv φ) (mode : String)
        (running : ℕ → Bool) (refs remuxes : List ℕ),
        validModes.contains mode = true →
        audio_fingerprinters.contains mode = true →
        (runFpBatch F running refs remuxes).halted = true →
      ∀ e ∈ pipelineMatch E F mode running refs remuxes, e.isMatch = false) := by
  refine ⟨?_, ?_, ?_⟩
  · intro φ E F mode running refs remuxes hv
    exact pipelineMatch_getLast E F mode running refs remuxes hv
  · intro φ E F mode running refs remuxes hv hnf hstop e he
    unfold pipelineMatch at he
    rw [if_neg (by rw [hv]; simp)] at he
    rcases List.mem_cons.mp he with he | he
    · rw [he]; rfl
    rcases List.mem_append.mp he with he | he
    · rw [if_neg (by rw [hnf]; simp)] at he
      simp only [exhEvents] at he
      rw [if_neg (by rw [hstop]; simp)] at he
      exact runExhaustiveLoop_evs_progress E running refs remuxes e he
    · simp at he; rw [he]; rfl
  · intro φ E F mode running refs remuxes hv hf hstop e he
    unfold pipelineMatch at he
    rw [if_neg (by rw [hv]; simp)] at he
    rcases List.mem_cons.mp he with he | he
    · rw [he]; rfl
    rcases List.mem_append.mp he with he | he
    · rw [if_pos hf] at he
      exact runFpBatch_halted_evs F running refs remuxes hstop e he
    · simp at he; rw [he]; rfl

/-- Trivial exhaustive environment for the C3 example runs. -/
def envStop : ExhEnv := ⟨fun _ _ => (1, "x"), fun _ => none, 1⟩

/-- Fingerprint environment for the C3 counterexample: extraction always
succeeds and every comparison scores 1. -/
def fpEnvStop : FpEnv Unit := ⟨fun _ => some (), fun _ _ => 1, 1, "chromaprint"⟩

/-- The stop schedule of the C3 counterexample: the flag reads true at its
first three reads and false from the fourth on. The batch run over one
reference and one remux performs exactly 3 reads (one per extracted file
and one before the single fingerprint comparison), so this schedule models
stop() taking effect while the final comparison unit is in flight. -/
def stopAfter3 : ℕ → Bool := fun k => decide (k < 3)

/-- Claim C3, counterexample (fingerprint-batch strategy, a valid matcher
mode): under `stopAfter3` the stop is effective from read 3 on, yet the
run's 3 performed reads all returned true, the batch never halts, the
output equals the never-stopped run's output, and a match event is still
yielded — necessarily after the in-flight final comparison completed,
because the emission phase performs no further flag reads. -/
theorem pipeline_stop_cex :
    stopAfter3 3 = false ∧
    (runFpBatch fpEnvStop stopAfter3 [0] [1]).chk = 3 ∧
    (runFpBatch fpEnvStop stopAfter3 [0] [1]).halted = false ∧
    pipelineMatch envStop fpEnvStop "chromaprint" stopAfter3 [0] [1] =
      pipelineMatch envStop fpEnvStop "chromaprint" (fun _ => true) [0] [1] ∧
    Ev.matchEv (some 1) (some 0) 1 "Chromaprint similarity" none ∈
      pipelineMatch envStop fpEnvStop "chromaprint" stopAfter3 [0] [1] := by
  refine ⟨rfl, by decide, by decide, by decide, by decide⟩

/-- Witness for C3 at a stop observed before the first comparison. -/
theorem pipeline_stop_witness :
    (pipelineMatch envStop fpEnvTriv "correlation" (fun _ => false) [0] [1]).getLast? =
      some (Ev.progress "Matching complete" 100) ∧
    (Ev.progress "Starting correlation matching..." 0).isMatch = false :=
  ⟨pipeline_stop_amended.1 Unit envStop fpEnvTriv "correlation" (fun _ => false)
      [0] [1] (by decide),
    pipeline_stop_amended.2.1 Unit envStop fpEnvTriv "correlation"
      (fun _ => false) [0] [1] (by decide) (by decide) rfl
      (Ev.progress "Starting correlation matching..." 0) (by decide)⟩

end VER
